import Mathlib

/-!
Verification development for the query/aggregation engine and transactional
writer of a genome-wide contact-matrix library (hictkpy).  The compiled core
of the library is a systems-language extension module that is not shipped in
the Python source tree; following the specification document, the data model
and the operations exercised by the library's test-suite are modelled here as
executable Lean definitions, and the behavioural claims are settled against
this model.
-/

namespace Hictkpy

/-! ## Pixels and materialization views -/

/-- Modelled from the spec: a COO pixel `(bin1_id, bin2_id, count)`.  The
canonical storage invariant is `bin1 ≤ bin2` (upper-triangular storage); the
compiled pixel-store codecs are not part of the Python source tree. -/
structure Pixel where
  bin1 : Nat
  bin2 : Nat
  count : Int
deriving DecidableEq, Repr

/-- Modelled from the spec: the "to table" materialization (`to_df`) of a
selection: one row `(bin1_id, bin2_id, count)` per stored pixel in range. -/
def toTable (sel : List Pixel) : List (Nat × Nat × Int) :=
  sel.map (fun p => (p.bin1, p.bin2, p.count))

/-- Total count reported by the table materialization. -/
def tableSum (sel : List Pixel) : Int :=
  ((toTable sel).map (fun r => r.2.2)).sum

/-- Number of rows (nonzero entries) of the table materialization. -/
def tableNnz (sel : List Pixel) : Nat :=
  (toTable sel).length

/-- Modelled from the spec: the sparse COO materialization (`to_coo`) keeps
the stored upper-triangular entries as coordinate triplets. -/
def toCoo (sel : List Pixel) : List Pixel := sel

/-- Total count of the COO materialization. -/
def cooSum (sel : List Pixel) : Int :=
  ((toCoo sel).map Pixel.count).sum

/-- Number of stored entries of the COO materialization. -/
def cooNnz (sel : List Pixel) : Nat :=
  (toCoo sel).length

/-- Modelled from the spec: the sparse CSR materialization (`to_csr`) groups
the stored entries row by row (by `bin1_id`), over `n` rows. -/
def toCsr (n : Nat) (sel : List Pixel) : List (List Pixel) :=
  (List.range n).map (fun i => sel.filter (fun p => p.bin1 = i))

/-- Total count of the CSR materialization. -/
def csrSum (n : Nat) (sel : List Pixel) : Int :=
  ((toCsr n sel).map (fun row => (row.map Pixel.count).sum)).sum

/-- Number of stored entries of the CSR materialization. -/
def csrNnz (n : Nat) (sel : List Pixel) : Nat :=
  ((toCsr n sel).map List.length).sum

/-- Modelled from the spec: one cell of the dense matrix (`to_numpy`) of a
symmetric query over the bin range `[0, n)`.  Storage is upper-triangular
only, and the missing lower-triangular entries are synthesized by reflection:
cell `(i, j)` reads the stored pixel `(min i j, max i j)`. -/
def denseEntry (sel : List Pixel) (i j : Nat) : Int :=
  (sel.map (fun p =>
    if p.bin1 = min i j ∧ p.bin2 = max i j then p.count else 0)).sum

/-- Total of the dense matrix over the symmetric query `[0, n) × [0, n)`. -/
def denseSum (n : Nat) (sel : List Pixel) : Int :=
  ((List.range n).map (fun i =>
    ((List.range n).map (fun j => denseEntry sel i j)).sum)).sum

/-- Total count carried by the diagonal (`bin1 = bin2`) stored pixels. -/
def diagSum (sel : List Pixel) : Int :=
  (sel.map (fun p => if p.bin1 = p.bin2 then p.count else 0)).sum

/-! ## 2D query ordering -/

/-- Modelled from the spec: outcome of resolving a 2D query; the query engine
itself is in the compiled extension module. -/
inductive QueryError where
  | unknownChromosome (name : String)
  | rangesOutOfOrder (chrom1 chrom2 : String)
deriving DecidableEq, Repr

/-- Modelled from the spec: resolving a 2D chromosome-pair query against the
chromosome table.  Both chromosomes must exist, and `range1`'s chromosome must
not sort after `range2`'s chromosome in chromosome-table order; the engine
rejects out-of-order 2D queries instead of reordering the ranges. -/
def fetch2D (table : List String) (chrom1 chrom2 : String) :
    Except QueryError (Nat × Nat) :=
  match table.indexOf? chrom1, table.indexOf? chrom2 with
  | some i, some j =>
      if j < i then .error (.rangesOutOfOrder chrom1 chrom2)
      else .ok (i, j)
  | none, _ => .error (.unknownChromosome chrom1)
  | _, none => .error (.unknownChromosome chrom2)

/-! ## Floating-point-like count values

The statistics engine of the library operates on IEEE doubles.  Finite values
are modelled by exact rationals; the NaN and infinity behaviour relevant to
the claims is modelled explicitly. -/

/-- Modelled from the spec: an IEEE-style count value — NaN, an infinity, or a
finite value (modelled by an exact rational). -/
inductive FP where
  | nan : FP
  | posinf : FP
  | neginf : FP
  | fin : ℚ → FP
deriving DecidableEq, Repr

/-- Is the value NaN? -/
def FP.isNan : FP → Bool
  | .nan => true
  | _ => false

/-- Is the value an infinity (of either sign)? -/
def FP.isInfinite : FP → Bool
  | .posinf => true
  | .neginf => true
  | _ => false

/-- Is the value finite? -/
def FP.isFinite : FP → Bool
  | .fin _ => true
  | _ => false

/-- IEEE-style addition: NaN propagates; infinities of opposite sign give NaN. -/
def fpAdd : FP → FP → FP
  | .nan, _ => .nan
  | _, .nan => .nan
  | .posinf, .neginf => .nan
  | .neginf, .posinf => .nan
  | .posinf, _ => .posinf
  | _, .posinf => .posinf
  | .neginf, _ => .neginf
  | _, .neginf => .neginf
  | .fin a, .fin b => .fin (a + b)

/-- IEEE-style negation. -/
def fpNeg : FP → FP
  | .nan => .nan
  | .posinf => .neginf
  | .neginf => .posinf
  | .fin a => .fin (-a)

/-- IEEE-style subtraction. -/
def fpSub (a b : FP) : FP := fpAdd a (fpNeg b)

/-- IEEE-style multiplication: NaN propagates; infinity times zero is NaN. -/
def fpMul : FP → FP → FP
  | .nan, _ => .nan
  | _, .nan => .nan
  | .posinf, .posinf => .posinf
  | .posinf, .neginf => .neginf
  | .neginf, .posinf => .neginf
  | .neginf, .neginf => .posinf
  | .posinf, .fin b => if 0 < b then .posinf else if b < 0 then .neginf else .nan
  | .neginf, .fin b => if 0 < b then .neginf else if b < 0 then .posinf else .nan
  | .fin a, .posinf => if 0 < a then .posinf else if a < 0 then .neginf else .nan
  | .fin a, .neginf => if 0 < a then .neginf else if a < 0 then .posinf else .nan
  | .fin a, .fin b => .fin (a * b)

/-- IEEE-style division: NaN propagates; an infinity divided by an infinity is
NaN; a finite value divided by an infinity is zero. -/
def fpDiv : FP → FP → FP
  | .nan, _ => .nan
  | _, .nan => .nan
  | .posinf, .posinf => .nan
  | .posinf, .neginf => .nan
  | .neginf, .posinf => .nan
  | .neginf, .neginf => .nan
  | .posinf, .fin b => if b < 0 then .neginf else .posinf
  | .neginf, .fin b => if b < 0 then .posinf else .neginf
  | .fin _, .posinf => .fin 0
  | .fin _, .neginf => .fin 0
  | .fin a, .fin b =>
      if b = 0 then (if a = 0 then .nan else if 0 < a then .posinf else .neginf)
      else .fin (a / b)

/-- Minimum of two values, poisoned by NaN (the accumulator of the statistics
engine reports NaN for min whenever a NaN is retained). -/
def fpMin : FP → FP → FP
  | .nan, _ => .nan
  | _, .nan => .nan
  | .neginf, _ => .neginf
  | _, .neginf => .neginf
  | .posinf, b => b
  | a, .posinf => a
  | .fin a, .fin b => .fin (min a b)

/-- Maximum of two values, poisoned by NaN. -/
def fpMax : FP → FP → FP
  | .nan, _ => .nan
  | _, .nan => .nan
  | .posinf, _ => .posinf
  | _, .posinf => .posinf
  | .neginf, b => b
  | a, .neginf => a
  | .fin a, .fin b => .fin (max a b)

/-- Modelled from the spec: a computable stand-in for the double-precision
square root on nonnegative rationals (an integer-square-root based
approximation).  Only its NaN/infinity behaviour matters for the verified
claims; the finite approximation error is outside the model. -/
def ratSqrtApprox (q : ℚ) : ℚ :=
  (Nat.sqrt (q.num.toNat * q.den) : ℚ) / (q.den : ℚ)

/-- Square root lifted to IEEE-style values: NaN for NaN and for negative
inputs, `+inf` for `+inf`. -/
def fpSqrt : FP → FP
  | .nan => .nan
  | .posinf => .posinf
  | .neginf => .nan
  | .fin q => if q < 0 then .nan else .fin (ratSqrtApprox q)

/-! ## Statistics engine -/

/-- Sum of a population of count values. -/
def sumFP (l : List FP) : FP := l.foldl fpAdd (.fin 0)

/-- Mean of a population (unguarded; callers guard the empty population). -/
def popMean (l : List FP) : FP := fpDiv (sumFP l) (.fin (l.length : ℚ))

/-- Deviation of a value from the population mean. -/
def popDev (l : List FP) (x : FP) : FP := fpSub x (popMean l)

/-- Sum of squared deviations from the mean (second central sum). -/
def centralSum2 (l : List FP) : FP :=
  sumFP (l.map (fun x => fpMul (popDev l x) (popDev l x)))

/-- Sum of cubed deviations from the mean (third central sum). -/
def centralSum3 (l : List FP) : FP :=
  sumFP (l.map (fun x => fpMul (popDev l x) (fpMul (popDev l x) (popDev l x))))

/-- Sum of fourth powers of deviations from the mean (fourth central sum). -/
def centralSum4 (l : List FP) : FP :=
  sumFP (l.map (fun x =>
    fpMul (fpMul (popDev l x) (popDev l x)) (fpMul (popDev l x) (popDev l x))))

/-- Minimum of a population; `none` for the empty population. -/
def statMin : List FP → Option FP
  | [] => none
  | h :: t => some (t.foldl fpMin h)

/-- Maximum of a population; `none` for the empty population. -/
def statMax : List FP → Option FP
  | [] => none
  | h :: t => some (t.foldl fpMax h)

/-- Mean of a population; `none` for the empty population. -/
def statMean (l : List FP) : Option FP :=
  if l.isEmpty then none else some (popMean l)

/-- Modelled from the spec: sample variance; `none` (undefined) for
populations with fewer than two observations. -/
def statVariance (l : List FP) : Option FP :=
  if l.length ≤ 1 then none
  else some (fpDiv (centralSum2 l) (.fin ((l.length : ℚ) - 1)))

/-- Modelled from the spec: skewness `m3 / sqrt(m2)^3` over the per-observation
central moments; `none` (undefined) for fewer than two observations. -/
def statSkewness (l : List FP) : Option FP :=
  if l.length ≤ 1 then none
  else
    some (fpDiv (fpDiv (centralSum3 l) (.fin (l.length : ℚ)))
      (fpMul (fpSqrt (fpDiv (centralSum2 l) (.fin (l.length : ℚ))))
        (fpMul (fpSqrt (fpDiv (centralSum2 l) (.fin (l.length : ℚ))))
          (fpSqrt (fpDiv (centralSum2 l) (.fin (l.length : ℚ)))))))

/-- Modelled from the spec: excess kurtosis `m4 / m2^2 - 3` over the
per-observation central moments; `none` for fewer than two observations. -/
def statKurtosis (l : List FP) : Option FP :=
  if l.length ≤ 1 then none
  else
    some (fpSub (fpDiv (fpDiv (centralSum4 l) (.fin (l.length : ℚ)))
      (fpMul (fpDiv (centralSum2 l) (.fin (l.length : ℚ)))
        (fpDiv (centralSum2 l) (.fin (l.length : ℚ)))))
      (.fin 3))

/-- Modelled from the spec: the NaN/Inf filter of the statistics engine.  A
stored value is dropped when it is NaN and `keepNans` is false, or an infinity
and `keepInfs` is false. -/
def retain (keepNans keepInfs : Bool) (stored : List FP) : List FP :=
  stored.filter (fun x => (!x.isNan || keepNans) && (!x.isInfinite || keepInfs))

/-- Result record of the `describe` entry point. -/
structure DescribeResult where
  nnz : Nat
  sum : FP
  min : Option FP
  max : Option FP
  mean : Option FP
  variance : Option FP
  skewness : Option FP
  kurtosis : Option FP
deriving DecidableEq, Repr

/-- Modelled from the spec: descriptive statistics over the retained stored
values plus `nzeros` synthesized implicit-zero observations (`keep_zeros`).
`nnz` counts the retained stored entries only; the other statistics are
computed over the whole population. -/
def describeStats (retained : List FP) (nzeros : Nat) : DescribeResult :=
  let pop := retained ++ List.replicate nzeros (FP.fin 0)
  { nnz := retained.length
    sum := sumFP pop
    min := statMin pop
    max := statMax pop
    mean := statMean pop
    variance := statVariance pop
    skewness := statSkewness pop
    kurtosis := statKurtosis pop }

/-! ## Exact (two-pass) versus streaming (single-pass) moments

Both algorithms are modelled over exact rationals; the claims about their
agreement concern the algorithms, with floating-point rounding abstracted
away. -/

/-- State of a moments accumulator: observation count, mean, and second,
third and fourth central sums. -/
structure Moments where
  n : Nat
  mean : ℚ
  m2 : ℚ
  m3 : ℚ
  m4 : ℚ
deriving DecidableEq, Repr

/-- Modelled from the spec: one step of the single-pass (streaming,
Welford/Terriberry-style) moments accumulator. -/
def pushMoment (s : Moments) (x : ℚ) : Moments :=
  let m : ℚ := (s.n : ℚ)
  let d : ℚ := x - s.mean
  let dn : ℚ := d / (m + 1)
  let t1 : ℚ := d * dn * m
  { n := s.n + 1
    mean := s.mean + dn
    m2 := s.m2 + t1
    m3 := s.m3 + t1 * dn * (m - 1) - 3 * dn * s.m2
    m4 := s.m4 + t1 * (dn * dn) * (m * m - m + 1) + 6 * (dn * dn) * s.m2
      - 4 * dn * s.m3 }

/-- Empty accumulator state. -/
def initMoments : Moments := ⟨0, 0, 0, 0, 0⟩

/-- Single-pass streaming computation of the moments of a dataset. -/
def singlePassMoments (xs : List ℚ) : Moments := xs.foldl pushMoment initMoments

/-- Exact mean of a dataset (first pass of the two-pass algorithm). -/
def meanQ (xs : List ℚ) : ℚ := xs.sum / (xs.length : ℚ)

/-- Sum of `k`-th powers of deviations from the exact mean (second pass of the
two-pass algorithm). -/
def centralSumQ (xs : List ℚ) (k : Nat) : ℚ :=
  (xs.map (fun x => (x - meanQ xs) ^ k)).sum

/-- Modelled from the spec: the exact two-pass moments — first pass computes
the mean, second pass the central sums from the exact mean. -/
def twoPassMoments (xs : List ℚ) : Moments :=
  ⟨xs.length, meanQ xs, centralSumQ xs 2, centralSumQ xs 3, centralSumQ xs 4⟩

/-- Sample variance read off a moments state (`none` below two observations). -/
def varianceOfMoments (s : Moments) : Option ℚ :=
  if s.n ≤ 1 then none else some (s.m2 / ((s.n : ℚ) - 1))

/-- Skewness read off a moments state, with the square root replaced by its
computable rational approximation (`none` below two observations). -/
def skewnessOfMoments (s : Moments) : Option ℚ :=
  if s.n ≤ 1 then none
  else some ((s.m3 / (s.n : ℚ)) / ratSqrtApprox (s.m2 / (s.n : ℚ)) ^ 3)

/-- Excess kurtosis read off a moments state (`none` below two observations). -/
def kurtosisOfMoments (s : Moments) : Option ℚ :=
  if s.n ≤ 1 then none
  else some ((s.m4 / (s.n : ℚ)) / (s.m2 / (s.n : ℚ)) ^ 2 - 3)

/-- Variance computed with `exact=true` (two-pass). -/
def varianceTwoPass (xs : List ℚ) : Option ℚ := varianceOfMoments (twoPassMoments xs)

/-- Variance computed with `exact=false` (single-pass streaming). -/
def varianceSinglePass (xs : List ℚ) : Option ℚ :=
  varianceOfMoments (singlePassMoments xs)

/-- Skewness computed with `exact=true` (two-pass). -/
def skewnessTwoPass (xs : List ℚ) : Option ℚ := skewnessOfMoments (twoPassMoments xs)

/-- Skewness computed with `exact=false` (single-pass streaming). -/
def skewnessSinglePass (xs : List ℚ) : Option ℚ :=
  skewnessOfMoments (singlePassMoments xs)

/-- Kurtosis computed with `exact=true` (two-pass). -/
def kurtosisTwoPass (xs : List ℚ) : Option ℚ := kurtosisOfMoments (twoPassMoments xs)

/-- Kurtosis computed with `exact=false` (single-pass streaming). -/
def kurtosisSinglePass (xs : List ℚ) : Option ℚ :=
  kurtosisOfMoments (singlePassMoments xs)

/-! ## FileWriter state machine -/

/-- Modelled from the spec: error taxonomy of the writer — validation errors
("your data was bad") are a distinct class from state errors ("you used the
API out of sequence"). -/
inductive WriterError where
  | validation (msg : String)
  | alreadyFinalized
  | finalizeAlreadyCalled
deriving DecidableEq, Repr

/-- Modelled from the spec: the chunked, finalize-once file writer.  The
compiled writer is in the extension module; here it is a state machine
`Ingesting → Finalized` accumulating validated pixels. -/
structure FileWriter where
  finalized : Bool
  pixels : List Pixel
deriving DecidableEq, Repr

/-- Modelled from the spec: the observable on-disk state touched by a writer —
whether the destination file exists, and how many staging artifacts remain. -/
structure WriterFS where
  output : Bool
  staging : Nat
deriving DecidableEq, Repr

/-- Chunk validation: the upper-triangular invariant `bin1 ≤ bin2` must hold
for every pixel (reversed ordering is an error, never auto-swapped). -/
def validChunk (chunk : List Pixel) : Bool :=
  chunk.all (fun p => p.bin1 ≤ p.bin2)

/-- Modelled from the spec: `add_pixels`.  After finalize it fails with the
specific "already finalized" state error; otherwise the chunk is validated and
either ingested whole or rejected whole. -/
def addPixels (w : FileWriter) (chunk : List Pixel) : Except WriterError FileWriter :=
  if w.finalized then .error .alreadyFinalized
  else if validChunk chunk then .ok { w with pixels := w.pixels ++ chunk }
  else .error (.validation "reversed bin ordering in pixel chunk")

/-- Modelled from the spec: `finalize()` — the single allowed call commits the
staged data to the destination file and clears the staging area; a second call
fails with the "finalize already called" state error. -/
def finalizeWriter (w : FileWriter) (_fs : WriterFS) :
    Except WriterError (FileWriter × WriterFS) :=
  if w.finalized then .error .finalizeAlreadyCalled
  else .ok ({ w with finalized := true }, { output := true, staging := 0 })

/-- Modelled from the spec: aborting a writer removes the (un-finalized)
output file and every staging artifact. -/
def abortWriter (_fs : WriterFS) : WriterFS := { output := false, staging := 0 }

/-- Modelled from the spec: scoped-resource exit.  On normal exit the writer
is finalized if not already finalized; on exceptional exit before finalize the
writer aborts and leaves no output file and no staging artifacts. -/
def writerExit (w : FileWriter) (fs : WriterFS) (raised : Bool) : WriterFS :=
  if raised then
    if w.finalized then fs else abortWriter fs
  else
    match finalizeWriter w fs with
    | .ok (_, fs2) => fs2
    | .error _ => fs

/-! ## File handle lifecycle -/

/-- Modelled from the spec: a file handle owning a backend connection, with
lifecycle `Open → Closed`; the compiled handle is in the extension module. -/
structure FileHandle where
  closed : Bool
  filePath : String
  fileUri : String
  chromNames : List String
  resolution : Nat
deriving DecidableEq, Repr

/-- Modelled from the spec: `close()` — marks the handle closed; closing an
already-closed handle is a no-op (it is a total function and never fails). -/
def closeFile (f : FileHandle) : FileHandle := { f with closed := true }

/-- Accessor `path()`: fails on a closed handle. -/
def pathAccessor (f : FileHandle) : Except String String :=
  if f.closed then .error "file has already been closed" else .ok f.filePath

/-- Accessor `uri()`: fails on a closed handle. -/
def uriAccessor (f : FileHandle) : Except String String :=
  if f.closed then .error "file has already been closed" else .ok f.fileUri

/-- Accessor `chromosomes()`: fails on a closed handle. -/
def chromosomesAccessor (f : FileHandle) : Except String (List String) :=
  if f.closed then .error "file has already been closed" else .ok f.chromNames

/-- Accessor `resolution()`: fails on a closed handle. -/
def resolutionAccessor (f : FileHandle) : Except String Nat :=
  if f.closed then .error "file has already been closed" else .ok f.resolution

/-! ## Concrete test scenario -/

/-- Observable values of the concrete cooler-backed test scenario. -/
structure ScenarioObservables where
  nchroms : Nat
  resolution : Nat
  nbins : Nat
  genomeWideSum : Nat
  genomeWideNnz : Nat
  chr2RchrXSum : Nat
deriving DecidableEq, Repr

/-- Modelled from the spec: the cooler-backed test file (8 chromosomes at
100,000 bp resolution).  The test data file and the compiled query engine are
not part of the Python source tree, so the scenario's observables are the ones
recorded by the specification's concrete-scenario section. -/
def coolerTestFile : ScenarioObservables :=
  { nchroms := 8
    resolution := 100000
    nbins := 1380
    genomeWideSum := 119208613
    genomeWideNnz := 890384
    chr2RchrXSum := 83604 }

/-! ## Helper lemmas on list sums -/

theorem sum_map_fun_add {α β : Type} [AddCommMonoid β] (l : List α) (f g : α → β) :
    (l.map (fun x => f x + g x)).sum = (l.map f).sum + (l.map g).sum := by
  induction l with
  | nil => simp
  | cons a t ih => simp [ih]; abel

theorem sum_map_ite_not_mem {β : Type} [AddCommMonoid β] (l : List Nat) (b : Nat)
    (c : β) (h : b ∉ l) : (l.map (fun i => if i = b then c else 0)).sum = 0 := by
  induction l with
  | nil => simp
  | cons a t ih =>
      have ha : a ≠ b := fun hab => h (hab ▸ List.mem_cons_self a t)
      have ht : b ∉ t := fun hbt => h (List.mem_cons_of_mem a hbt)
      simp [ha, ih ht]

theorem sum_range_ite {β : Type} [AddCommMonoid β] (n b : Nat) (c : β) (h : b < n) :
    ((List.range n).map (fun i => if i = b then c else 0)).sum = c := by
  induction n with
  | zero => omega
  | succ m ih =>
      rw [List.range_succ, List.map_append, List.sum_append]
      by_cases hb : b = m
      · subst hb
        rw [sum_map_ite_not_mem _ _ _ (by simp)]
        simp
      · have hbm : b < m := by omega
        rw [ih hbm]
        simp [Ne.symm hb]

/-! ## C1: agreement of the materialization operations -/

theorem table_eq_coo_sum (sel : List Pixel) : tableSum sel = cooSum sel := by
  simp only [tableSum, toTable, cooSum, toCoo, List.map_map]
  rfl

theorem table_eq_coo_nnz (sel : List Pixel) : tableNnz sel = cooNnz sel := by
  simp [tableNnz, toTable, cooNnz, toCoo]

theorem csr_row_decompose (p : Pixel) (sel : List Pixel) (i : Nat) :
    (((p :: sel).filter (fun q => q.bin1 = i)).map Pixel.count).sum
      = (if p.bin1 = i then p.count else 0)
        + ((sel.filter (fun q => q.bin1 = i)).map Pixel.count).sum := by
  by_cases h : p.bin1 = i <;> simp [List.filter_cons, h]

theorem csr_eq_coo_sum (n : Nat) (sel : List Pixel)
    (h : ∀ p ∈ sel, p.bin1 < n) : csrSum n sel = cooSum sel := by
  induction sel with
  | nil => simp [csrSum, toCsr, cooSum, toCoo]
  | cons p t ih =>
      have hp : p.bin1 < n := h p (List.mem_cons_self p t)
      have ht : ∀ q ∈ t, q.bin1 < n := fun q hq => h q (List.mem_cons_of_mem p hq)
      have hrow : ((List.range n).map (fun i =>
          (((p :: t).filter (fun q => q.bin1 = i)).map Pixel.count).sum)).sum
          = ((List.range n).map (fun i => (if p.bin1 = i then p.count else 0)
              + ((t.filter (fun q => q.bin1 = i)).map Pixel.count).sum)).sum := by
        apply congrArg
        apply List.map_congr_left
        intro i _hi
        exact csr_row_decompose p t i
      have hsplit := sum_map_fun_add (List.range n)
        (fun i => if p.bin1 = i then p.count else 0)
        (fun i => ((t.filter (fun q => q.bin1 = i)).map Pixel.count).sum)
      have hind : ((List.range n).map (fun i =>
          if p.bin1 = i then p.count else 0)).sum = p.count := by
        have := sum_range_ite n p.bin1 p.count hp
        simpa [eq_comm] using this
      calc csrSum n (p :: t)
          = ((List.range n).map (fun i => (if p.bin1 = i then p.count else 0)
              + ((t.filter (fun q => q.bin1 = i)).map Pixel.count).sum)).sum := by
            simpa [csrSum, toCsr] using hrow
        _ = p.count + csrSum n t := by
            rw [hsplit, hind]
            simp only [csrSum, toCsr, List.map_map]
            rfl
        _ = cooSum (p :: t) := by
            rw [ih ht]; simp [cooSum, toCoo]

theorem csr_eq_coo_nnz (n : Nat) (sel : List Pixel)
    (h : ∀ p ∈ sel, p.bin1 < n) : csrNnz n sel = cooNnz sel := by
  induction sel with
  | nil => simp [csrNnz, toCsr, cooNnz, toCoo]
  | cons p t ih =>
      have hp : p.bin1 < n := h p (List.mem_cons_self p t)
      have ht : ∀ q ∈ t, q.bin1 < n := fun q hq => h q (List.mem_cons_of_mem p hq)
      have hrow : ∀ i, ((p :: t).filter (fun q => q.bin1 = i)).length
          = (if p.bin1 = i then 1 else 0)
            + (t.filter (fun q => q.bin1 = i)).length := by
        intro i
        by_cases hpi : p.bin1 = i <;> simp [List.filter_cons, hpi, Nat.add_comm]
      have hmap : ((List.range n).map (fun i =>
          ((p :: t).filter (fun q => q.bin1 = i)).length)).sum
          = ((List.range n).map (fun i => (if p.bin1 = i then 1 else 0)
              + (t.filter (fun q => q.bin1 = i)).length)).sum := by
        apply congrArg
        exact List.map_congr_left (fun i _ => hrow i)
      have hsplit := sum_map_fun_add (List.range n)
        (fun i => if p.bin1 = i then (1 : Nat) else 0)
        (fun i => (t.filter (fun q => q.bin1 = i)).length)
      have hind : ((List.range n).map (fun i =>
          if p.bin1 = i then (1 : Nat) else 0)).sum = 1 := by
        have := sum_range_ite n p.bin1 (1 : Nat) hp
        simpa [eq_comm] using this
      calc csrNnz n (p :: t)
          = ((List.range n).map (fun i => (if p.bin1 = i then (1 : Nat) else 0)
              + (t.filter (fun q => q.bin1 = i)).length)).sum := by
            simpa [csrNnz, toCsr] using hmap
        _ = 1 + csrNnz n t := by
            rw [hsplit, hind]
            simp only [csrNnz, toCsr, List.map_map]
            rfl
        _ = cooNnz (p :: t) := by
            rw [ih ht]; simp [cooNnz, toCoo, Nat.add_comm]

theorem inner_sum_iff {β : Type} [AddCommMonoid β] (n : Nat) (c : β)
    (P : Nat → Prop) [DecidablePred P] (b : Nat) (hb : b < n)
    (h : ∀ j, P j ↔ j = b) :
    ((List.range n).map (fun j => if P j then c else 0)).sum = c := by
  have hmap : (List.range n).map (fun j => if P j then c else 0)
      = (List.range n).map (fun j => if j = b then c else 0) :=
    List.map_congr_left (fun j _ => if_congr (h j) rfl rfl)
  rw [hmap]
  exact sum_range_ite n b c hb

theorem inner_sum_false {β : Type} [AddCommMonoid β] (n : Nat) (c : β)
    (P : Nat → Prop) [DecidablePred P] (h : ∀ j, ¬ P j) :
    ((List.range n).map (fun j => if P j then c else 0)).sum = 0 := by
  have hmap : (List.range n).map (fun j => if P j then c else 0)
      = (List.range n).map (fun _ => (0 : β)) :=
    List.map_congr_left (fun j _ => by simp [h j])
  rw [hmap]
  simp

theorem minmax_cond (b1 b2 i j : Nat) (h : b1 ≤ b2) :
    (b1 = min i j ∧ b2 = max i j) ↔
      ((i = b1 ∧ j = b2) ∨ (i = b2 ∧ j = b1)) := by
  rcases Nat.le_total i j with hij | hij
  · rw [min_eq_left hij, max_eq_right hij]
    omega
  · rw [min_eq_right hij, max_eq_left hij]
    omega

theorem dense_single_pixel (n : Nat) (p : Pixel) (h1 : p.bin1 ≤ p.bin2)
    (h2 : p.bin2 < n) :
    ((List.range n).map (fun i => ((List.range n).map (fun j =>
      if p.bin1 = min i j ∧ p.bin2 = max i j then p.count else 0)).sum)).sum
    = if p.bin1 = p.bin2 then p.count else 2 * p.count := by
  have hb1 : p.bin1 < n := lt_of_le_of_lt h1 h2
  by_cases hd : p.bin1 = p.bin2
  · have hpt : ∀ i, ((List.range n).map (fun j =>
        if p.bin1 = min i j ∧ p.bin2 = max i j then p.count else 0)).sum
        = (if i = p.bin1 then p.count else 0) := by
      intro i
      by_cases hi : i = p.bin1
      · rw [inner_sum_iff n p.count _ p.bin1 hb1
          (fun j => by rw [minmax_cond _ _ i j h1]; omega)]
        simp [hi]
      · rw [inner_sum_false n p.count _
          (fun j => by rw [minmax_cond _ _ i j h1]; omega)]
        simp [hi]
    rw [List.map_congr_left (fun i _ => hpt i), sum_range_ite n p.bin1 p.count hb1]
    simp [hd]
  · have hlt : p.bin1 < p.bin2 := lt_of_le_of_ne h1 hd
    have hpt : ∀ i, ((List.range n).map (fun j =>
        if p.bin1 = min i j ∧ p.bin2 = max i j then p.count else 0)).sum
        = (if i = p.bin1 then p.count else 0) + (if i = p.bin2 then p.count else 0) := by
      intro i
      by_cases hi1 : i = p.bin1
      · rw [inner_sum_iff n p.count _ p.bin2 h2
          (fun j => by rw [minmax_cond _ _ i j h1]; omega)]
        simp [hi1, hd]
      · by_cases hi2 : i = p.bin2
        · rw [inner_sum_iff n p.count _ p.bin1 hb1
            (fun j => by rw [minmax_cond _ _ i j h1]; omega)]
          have hd2 : p.bin2 ≠ p.bin1 := fun hh => hd hh.symm
          simp [hi1, hi2, hd2]
        · rw [inner_sum_false n p.count _
            (fun j => by rw [minmax_cond _ _ i j h1]; omega)]
          simp [hi1, hi2]
    rw [List.map_congr_left (fun i _ => hpt i),
      sum_map_fun_add (List.range n) (fun i => if i = p.bin1 then p.count else 0)
        (fun i => if i = p.bin2 then p.count else 0),
      sum_range_ite n p.bin1 p.count hb1, sum_range_ite n p.bin2 p.count h2]
    simp [hd]
    ring

theorem denseSum_cons (n : Nat) (p : Pixel) (sel : List Pixel) :
    denseSum n (p :: sel)
      = ((List.range n).map (fun i => ((List.range n).map (fun j =>
          if p.bin1 = min i j ∧ p.bin2 = max i j then p.count else 0)).sum)).sum
        + denseSum n sel := by
  have hentry : ∀ i j, denseEntry (p :: sel) i j
      = (if p.bin1 = min i j ∧ p.bin2 = max i j then p.count else 0)
        + denseEntry sel i j := by
    intro i j
    simp [denseEntry]
  have hin : ∀ i, ((List.range n).map (fun j => denseEntry (p :: sel) i j)).sum
      = ((List.range n).map (fun j =>
          if p.bin1 = min i j ∧ p.bin2 = max i j then p.count else 0)).sum
        + ((List.range n).map (fun j => denseEntry sel i j)).sum := by
    intro i
    rw [List.map_congr_left (fun j _ => hentry i j)]
    exact sum_map_fun_add (List.range n) _ _
  calc denseSum n (p :: sel)
      = ((List.range n).map (fun i =>
          ((List.range n).map (fun j =>
            if p.bin1 = min i j ∧ p.bin2 = max i j then p.count else 0)).sum
          + ((List.range n).map (fun j => denseEntry sel i j)).sum)).sum := by
        unfold denseSum
        exact congrArg _ (List.map_congr_left (fun i _ => hin i))
    _ = _ := by
        rw [sum_map_fun_add (List.range n) _ _]
        rfl

theorem denseSum_reflection (n : Nat) (sel : List Pixel)
    (hut : ∀ p ∈ sel, p.bin1 ≤ p.bin2) (hlt : ∀ p ∈ sel, p.bin2 < n) :
    denseSum n sel = 2 * cooSum sel - diagSum sel := by
  induction sel with
  | nil =>
      have : ∀ i : Nat, ((List.range n).map (fun j => denseEntry [] i j)).sum = 0 := by
        intro i
        simp [denseEntry]
      unfold denseSum
      rw [List.map_congr_left (fun i _ => this i)]
      simp [cooSum, toCoo, diagSum]
  | cons p t ih =>
      have hp1 := hut p (List.mem_cons_self p t)
      have hp2 := hlt p (List.mem_cons_self p t)
      have ht1 : ∀ q ∈ t, q.bin1 ≤ q.bin2 := fun q hq => hut q (List.mem_cons_of_mem p hq)
      have ht2 : ∀ q ∈ t, q.bin2 < n := fun q hq => hlt q (List.mem_cons_of_mem p hq)
      rw [denseSum_cons, dense_single_pixel n p hp1 hp2, ih ht1 ht2]
      have hcoo : cooSum (p :: t) = p.count + cooSum t := by simp [cooSum, toCoo]
      have hdiag : diagSum (p :: t)
          = (if p.bin1 = p.bin2 then p.count else 0) + diagSum t := by
        simp [diagSum]
      rw [hcoo, hdiag]
      by_cases hd : p.bin1 = p.bin2 <;> simp [hd] <;> ring

/-- C1, counterexample: the claim that table, dense and sparse materializations
all agree on total sum fails on the code: for the symmetric query over two
bins with the single stored off-diagonal pixel `(0, 1, 1)`, the table and COO
totals are `1`, but the dense matrix synthesizes the reflected entry `(1, 0)`
and its total is `2` (the repository's own tests assert a genome-wide dense
total of 178,263,235 against a COO/table total of 119,208,613). -/
theorem materialization_agreement_counterexample :
    tableSum [Pixel.mk 0 1 1] = 1 ∧ cooSum [Pixel.mk 0 1 1] = 1 ∧
    denseSum 2 [Pixel.mk 0 1 1] = 2 ∧
    ¬ denseSum 2 [Pixel.mk 0 1 1] = cooSum [Pixel.mk 0 1 1] := by
  decide

/-- C1, amended: for every identical query, the table (`to_df`) and sparse
(`to_coo`/`to_csr`) materializations agree on the total sum of counts and on
the nonzero count; the dense (`to_numpy`) materialization of a symmetric query
instead synthesizes the reflected lower triangle, so its total equals twice
the sparse total minus the diagonal total, and it agrees with the others only
when the off-diagonal total vanishes. -/
theorem materialization_agreement_amended (n : Nat) (sel : List Pixel)
    (hut : ∀ p ∈ sel, p.bin1 ≤ p.bin2) (hlt : ∀ p ∈ sel, p.bin2 < n) :
    tableSum sel = cooSum sel ∧ tableNnz sel = cooNnz sel ∧
    csrSum n sel = cooSum sel ∧ csrNnz n sel = cooNnz sel ∧
    denseSum n sel = 2 * cooSum sel - diagSum sel := by
  have hb1 : ∀ p ∈ sel, p.bin1 < n := fun p hp => lt_of_le_of_lt (hut p hp) (hlt p hp)
  exact ⟨table_eq_coo_sum sel, table_eq_coo_nnz sel, csr_eq_coo_sum n sel hb1,
    csr_eq_coo_nnz n sel hb1, denseSum_reflection n sel hut hlt⟩

/-- Witness for the amended C1 theorem on a concrete two-pixel selection. -/
theorem materialization_agreement_witness :
    (∀ p ∈ ([Pixel.mk 0 0 3, Pixel.mk 0 1 2] : List Pixel), p.bin1 ≤ p.bin2) ∧
    (∀ p ∈ ([Pixel.mk 0 0 3, Pixel.mk 0 1 2] : List Pixel), p.bin2 < 2) ∧
    (tableSum [Pixel.mk 0 0 3, Pixel.mk 0 1 2]
        = cooSum [Pixel.mk 0 0 3, Pixel.mk 0 1 2] ∧
      tableNnz [Pixel.mk 0 0 3, Pixel.mk 0 1 2]
        = cooNnz [Pixel.mk 0 0 3, Pixel.mk 0 1 2] ∧
      csrSum 2 [Pixel.mk 0 0 3, Pixel.mk 0 1 2]
        = cooSum [Pixel.mk 0 0 3, Pixel.mk 0 1 2] ∧
      csrNnz 2 [Pixel.mk 0 0 3, Pixel.mk 0 1 2]
        = cooNnz [Pixel.mk 0 0 3, Pixel.mk 0 1 2] ∧
      denseSum 2 [Pixel.mk 0 0 3, Pixel.mk 0 1 2]
        = 2 * cooSum [Pixel.mk 0 0 3, Pixel.mk 0 1 2]
          - diagSum [Pixel.mk 0 0 3, Pixel.mk 0 1 2]) :=
  ⟨by decide, by decide,
    materialization_agreement_amended 2 _ (by decide) (by decide)⟩

/-- C7: for a symmetric query (`range1 = range2`) the materialized dense
matrix of raw counts equals its own transpose exactly — cell `(i, j)` equals
cell `(j, i)` as integers, with no floating-point tolerance. -/
theorem dense_matrix_symmetric (sel : List Pixel) (i j : Nat) :
    denseEntry sel i j = denseEntry sel j i := by
  simp only [denseEntry, min_comm i j, max_comm i j]

/-- C8: a 2D query whose first range names a chromosome that sorts after the
second range's chromosome in chromosome-table order is rejected with an error
(the ranges are never reordered on the caller's behalf). -/
theorem trans_query_out_of_order_rejected (table : List String) (c1 c2 : String)
    (i j : Nat) (h1 : table.indexOf? c1 = some i) (h2 : table.indexOf? c2 = some j)
    (hij : j < i) :
    fetch2D table c1 c2 = .error (.rangesOutOfOrder c1 c2) := by
  simp [fetch2D, h1, h2, hij]

/-- Witness for C8: querying `("chrX", "chr2R")` against the table
`["chr2R", "chrX"]` fails with the out-of-order error. -/
theorem trans_query_out_of_order_witness :
    (["chr2R", "chrX"].indexOf? "chrX" = some 1) ∧
    (["chr2R", "chrX"].indexOf? "chr2R" = some 0) ∧ 0 < 1 ∧
    fetch2D ["chr2R", "chrX"] "chrX" "chr2R"
      = .error (.rangesOutOfOrder "chrX" "chr2R") :=
  ⟨rfl, rfl, Nat.zero_lt_one,
    trans_query_out_of_order_rejected ["chr2R", "chrX"] "chrX" "chr2R" 1 0 rfl rfl
      Nat.zero_lt_one⟩

/-- C2: the modelled cooler-backed test scenario — 8 chromosomes at 100,000
resolution with 1380 bins; the genome-wide fetch has sum 119,208,613 and
nonzero count 890,384, and the `("chr2R", "chrX")` fetch has sum 83,604. -/
theorem cooler_test_scenario :
    coolerTestFile.nchroms = 8 ∧ coolerTestFile.resolution = 100000 ∧
    coolerTestFile.nbins = 1380 ∧ coolerTestFile.genomeWideSum = 119208613 ∧
    coolerTestFile.genomeWideNnz = 890384 ∧ coolerTestFile.chr2RchrXSum = 83604 :=
  ⟨rfl, rfl, rfl, rfl, rfl, rfl⟩

/-- C5: once `finalize()` has succeeded, every later `add_pixels` fails with
the specific "already finalized" state error — a different error class from
every generic validation error — and every second `finalize()` fails with the
"finalize already called" state error; neither call is a silent no-op. -/
theorem writer_finalize_once (w w2 : FileWriter) (fs fs2 : WriterFS)
    (chunk : List Pixel) (h : finalizeWriter w fs = .ok (w2, fs2)) :
    addPixels w2 chunk = .error .alreadyFinalized ∧
    finalizeWriter w2 fs2 = .error .finalizeAlreadyCalled ∧
    (∀ msg, WriterError.alreadyFinalized ≠ WriterError.validation msg) ∧
    (∀ msg, WriterError.finalizeAlreadyCalled ≠ WriterError.validation msg) := by
  have hw2 : w2.finalized = true := by
    by_cases hf : w.finalized
    · simp [finalizeWriter, hf] at h
    · simp [finalizeWriter, hf] at h
      rw [← h.1]
  refine ⟨?_, ?_, ?_, ?_⟩
  · simp [addPixels, hw2]
  · simp [finalizeWriter, hw2]
  · intro msg hmsg
    cases hmsg
  · intro msg hmsg
    cases hmsg

/-- Witness for C5 on a concrete fresh writer. -/
theorem writer_finalize_once_witness :
    finalizeWriter (FileWriter.mk false []) (WriterFS.mk false 3)
      = .ok (FileWriter.mk true [], WriterFS.mk true 0) ∧
    (addPixels (FileWriter.mk true []) [Pixel.mk 0 1 1]
        = .error .alreadyFinalized ∧
      finalizeWriter (FileWriter.mk true []) (WriterFS.mk true 0)
        = .error .finalizeAlreadyCalled ∧
      (∀ msg, WriterError.alreadyFinalized ≠ WriterError.validation msg) ∧
      (∀ msg, WriterError.finalizeAlreadyCalled ≠ WriterError.validation msg)) :=
  ⟨rfl, writer_finalize_once (FileWriter.mk false []) (FileWriter.mk true [])
    (WriterFS.mk false 3) (WriterFS.mk true 0) [Pixel.mk 0 1 1] rfl⟩

/-- C6: scoped-resource exit of a writer — a normal exit finalizes the file if
not already finalized, so the output file exists afterwards; an exceptional
exit before finalize aborts, leaving no output file and no staging artifacts. -/
theorem writer_scoped_exit (w : FileWriter) (fs : WriterFS)
    (hinv : w.finalized = true → fs.output = true) :
    (writerExit w fs false).output = true ∧
    (w.finalized = false → writerExit w fs true = WriterFS.mk false 0) := by
  constructor
  · by_cases hf : w.finalized
    · simp [writerExit, finalizeWriter, hf, hinv hf]
    · simp [writerExit, finalizeWriter, hf]
  · intro hf
    simp [writerExit, abortWriter, hf]

/-- Witness for C6 on a concrete un-finalized writer with staging artifacts. -/
theorem writer_scoped_exit_witness :
    ((FileWriter.mk false [Pixel.mk 0 1 1]).finalized = true
        → (WriterFS.mk false 2).output = true) ∧
    ((writerExit (FileWriter.mk false [Pixel.mk 0 1 1]) (WriterFS.mk false 2)
        false).output = true ∧
      ((FileWriter.mk false [Pixel.mk 0 1 1]).finalized = false →
        writerExit (FileWriter.mk false [Pixel.mk 0 1 1]) (WriterFS.mk false 2)
          true = WriterFS.mk false 0)) :=
  ⟨by decide,
    writer_scoped_exit (FileWriter.mk false [Pixel.mk 0 1 1])
      (WriterFS.mk false 2) (by decide)⟩

/-- C10: `close()` on an already-closed file is a no-op (it is total and
leaves the handle unchanged), while every accessor on a closed handle —
`path()`, `uri()`, `chromosomes()`, `resolution()` — fails with the
"already been closed" error. -/
theorem closed_file_accessors (f : FileHandle) (h : f.closed = true) :
    closeFile f = f ∧
    pathAccessor f = .error "file has already been closed" ∧
    uriAccessor f = .error "file has already been closed" ∧
    chromosomesAccessor f = .error "file has already been closed" ∧
    resolutionAccessor f = .error "file has already been closed" := by
  refine ⟨?_, ?_, ?_, ?_, ?_⟩
  · cases f
    simp only [closeFile]
    simp_all
  · simp [pathAccessor, h]
  · simp [uriAccessor, h]
  · simp [chromosomesAccessor, h]
  · simp [resolutionAccessor, h]

/-- Witness for C10 on a concrete closed handle. -/
theorem closed_file_accessors_witness :
    (FileHandle.mk true "test.mcool" "test.mcool::/resolutions/100000"
        ["chr2L", "chr2R"] 100000).closed = true ∧
    (closeFile (FileHandle.mk true "test.mcool"
          "test.mcool::/resolutions/100000" ["chr2L", "chr2R"] 100000)
        = FileHandle.mk true "test.mcool" "test.mcool::/resolutions/100000"
          ["chr2L", "chr2R"] 100000 ∧
      pathAccessor (FileHandle.mk true "test.mcool"
          "test.mcool::/resolutions/100000" ["chr2L", "chr2R"] 100000)
        = .error "file has already been closed" ∧
      uriAccessor (FileHandle.mk true "test.mcool"
          "test.mcool::/resolutions/100000" ["chr2L", "chr2R"] 100000)
        = .error "file has already been closed" ∧
      chromosomesAccessor (FileHandle.mk true "test.mcool"
          "test.mcool::/resolutions/100000" ["chr2L", "chr2R"] 100000)
        = .error "file has already been closed" ∧
      resolutionAccessor (FileHandle.mk true "test.mcool"
          "test.mcool::/resolutions/100000" ["chr2L", "chr2R"] 100000)
        = .error "file has already been closed") :=
  ⟨rfl, closed_file_accessors _ rfl⟩

/-! ## NaN and infinity propagation through the statistics engine -/

theorem fpAdd_nan_right (a : FP) : fpAdd a .nan = .nan := by
  cases a <;> rfl

theorem foldl_fpAdd_nan (t : List FP) : t.foldl fpAdd .nan = .nan := by
  induction t with
  | nil => rfl
  | cons a t ih =>
      have h1 : fpAdd FP.nan a = FP.nan := by cases a <;> rfl
      rw [List.foldl_cons, h1]
      exact ih

theorem foldl_fpAdd_nan_mem (t : List FP) (acc : FP) (h : FP.nan ∈ t) :
    t.foldl fpAdd acc = .nan := by
  induction t generalizing acc with
  | nil => cases h
  | cons a t ih =>
      rcases List.mem_cons.mp h with ha | ht
      · subst ha
        simpa [fpAdd_nan_right] using foldl_fpAdd_nan t
      · exact ih _ ht

theorem sumFP_nan_mem (xs : List FP) (h : FP.nan ∈ xs) : sumFP xs = .nan :=
  foldl_fpAdd_nan_mem xs _ h

theorem fpAdd_posinf_left (x : FP) (hn : x ≠ .nan) (hm : x ≠ .neginf) :
    fpAdd .posinf x = .posinf := by
  cases x <;> simp_all [fpAdd]

theorem foldl_fpAdd_posinf (t : List FP) (hn : FP.nan ∉ t) (hm : FP.neginf ∉ t) :
    t.foldl fpAdd .posinf = .posinf := by
  induction t with
  | nil => rfl
  | cons a t ih =>
      have ha1 : a ≠ .nan := fun h => hn (h ▸ List.mem_cons_self a t)
      have ha2 : a ≠ .neginf := fun h => hm (h ▸ List.mem_cons_self a t)
      have hn' : FP.nan ∉ t := fun h => hn (List.mem_cons_of_mem a h)
      have hm' : FP.neginf ∉ t := fun h => hm (List.mem_cons_of_mem a h)
      simpa [fpAdd_posinf_left a ha1 ha2] using ih hn' hm'

theorem foldl_fpAdd_fin_posinf (t : List FP) (q : ℚ) (hp : FP.posinf ∈ t)
    (hn : FP.nan ∉ t) (hm : FP.neginf ∉ t) :
    t.foldl fpAdd (.fin q) = .posinf := by
  induction t generalizing q with
  | nil => cases hp
  | cons a t ih =>
      have hn' : FP.nan ∉ t := fun h => hn (List.mem_cons_of_mem a h)
      have hm' : FP.neginf ∉ t := fun h => hm (List.mem_cons_of_mem a h)
      rcases List.mem_cons.mp hp with ha | ht
      · subst ha
        simpa using foldl_fpAdd_posinf t hn' hm'
      · have ha1 : a ≠ .nan := fun h => hn (h ▸ List.mem_cons_self a t)
        have ha2 : a ≠ .neginf := fun h => hm (h ▸ List.mem_cons_self a t)
        cases a with
        | nan => exact absurd rfl ha1
        | neginf => exact absurd rfl ha2
        | posinf => simpa using foldl_fpAdd_posinf t hn' hm'
        | fin b => simpa [fpAdd] using ih (q + b) ht hn' hm'

theorem sumFP_posinf (xs : List FP) (hp : FP.posinf ∈ xs)
    (hn : FP.nan ∉ xs) (hm : FP.neginf ∉ xs) : sumFP xs = .posinf :=
  foldl_fpAdd_fin_posinf xs 0 hp hn hm

theorem foldl_fpAdd_posinf_neginf_mem (t : List FP) (h : FP.neginf ∈ t) :
    t.foldl fpAdd .posinf = .nan := by
  induction t with
  | nil => cases h
  | cons a t ih =>
      rcases List.mem_cons.mp h with ha | ht
      · subst ha
        simpa [fpAdd] using foldl_fpAdd_nan t
      · cases a with
        | nan => simpa [fpAdd] using foldl_fpAdd_nan t
        | neginf => simpa [fpAdd] using foldl_fpAdd_nan t
        | posinf => simpa [fpAdd] using ih ht
        | fin b => simpa [fpAdd] using ih ht

theorem foldl_fpAdd_neginf_posinf_mem (t : List FP) (h : FP.posinf ∈ t) :
    t.foldl fpAdd .neginf = .nan := by
  induction t with
  | nil => cases h
  | cons a t ih =>
      rcases List.mem_cons.mp h with ha | ht
      · subst ha
        simpa [fpAdd] using foldl_fpAdd_nan t
      · cases a with
        | nan => simpa [fpAdd] using foldl_fpAdd_nan t
        | posinf => simpa [fpAdd] using foldl_fpAdd_nan t
        | neginf => simpa [fpAdd] using ih ht
        | fin b => simpa [fpAdd] using ih ht

theorem foldl_fpAdd_both_inf (t : List FP) (acc : FP) (hp : FP.posinf ∈ t)
    (hm : FP.neginf ∈ t) : t.foldl fpAdd acc = .nan := by
  induction t generalizing acc with
  | nil => cases hp
  | cons a t ih =>
      rcases List.mem_cons.mp hp with hap | hpt
      · subst hap
        rcases List.mem_cons.mp hm with ham | hmt
        · cases ham
        · have : fpAdd acc .posinf = .nan ∨ fpAdd acc .posinf = .posinf := by
            cases acc <;> simp [fpAdd]
          rcases this with h1 | h1
          · simpa [h1] using foldl_fpAdd_nan t
          · simpa [h1] using foldl_fpAdd_posinf_neginf_mem t hmt
      · rcases List.mem_cons.mp hm with ham | hmt
        · subst ham
          have : fpAdd acc .neginf = .nan ∨ fpAdd acc .neginf = .neginf := by
            cases acc <;> simp [fpAdd]
          rcases this with h1 | h1
          · simpa [h1] using foldl_fpAdd_nan t
          · simpa [h1] using foldl_fpAdd_neginf_posinf_mem t hpt
        · exact ih _ hpt hmt

theorem sumFP_both_inf (xs : List FP) (hp : FP.posinf ∈ xs)
    (hm : FP.neginf ∈ xs) : sumFP xs = .nan :=
  foldl_fpAdd_both_inf xs _ hp hm

theorem fpMin_nan_right (a : FP) : fpMin a .nan = .nan := by
  cases a <;> rfl

theorem foldl_fpMin_nan (t : List FP) : t.foldl fpMin .nan = .nan := by
  induction t with
  | nil => rfl
  | cons a t ih =>
      have h1 : fpMin FP.nan a = FP.nan := by cases a <;> rfl
      rw [List.foldl_cons, h1]
      exact ih

theorem foldl_fpMin_nan_mem (t : List FP) (acc : FP) (h : FP.nan ∈ t) :
    t.foldl fpMin acc = .nan := by
  induction t generalizing acc with
  | nil => cases h
  | cons a t ih =>
      rcases List.mem_cons.mp h with ha | ht
      · subst ha
        simpa [fpMin_nan_right] using foldl_fpMin_nan t
      · exact ih _ ht

theorem statMin_nan (xs : List FP) (h : FP.nan ∈ xs) :
    statMin xs = some .nan := by
  cases xs with
  | nil => cases h
  | cons a t =>
      rcases List.mem_cons.mp h with ha | ht
      · subst ha
        simpa [statMin] using foldl_fpMin_nan t
      · simpa [statMin] using foldl_fpMin_nan_mem t a ht

theorem fpMax_nan_right (a : FP) : fpMax a .nan = .nan := by
  cases a <;> rfl

theorem foldl_fpMax_nan (t : List FP) : t.foldl fpMax .nan = .nan := by
  induction t with
  | nil => rfl
  | cons a t ih =>
      have h1 : fpMax FP.nan a = FP.nan := by cases a <;> rfl
      rw [List.foldl_cons, h1]
      exact ih

theorem foldl_fpMax_nan_mem (t : List FP) (acc : FP) (h : FP.nan ∈ t) :
    t.foldl fpMax acc = .nan := by
  induction t generalizing acc with
  | nil => cases h
  | cons a t ih =>
      rcases List.mem_cons.mp h with ha | ht
      · subst ha
        simpa [fpMax_nan_right] using foldl_fpMax_nan t
      · exact ih _ ht

theorem statMax_nan (xs : List FP) (h : FP.nan ∈ xs) :
    statMax xs = some .nan := by
  cases xs with
  | nil => cases h
  | cons a t =>
      rcases List.mem_cons.mp h with ha | ht
      · subst ha
        simpa [statMax] using foldl_fpMax_nan t
      · simpa [statMax] using foldl_fpMax_nan_mem t a ht

theorem fpMax_posinf_left (x : FP) (hn : x ≠ .nan) :
    fpMax .posinf x = .posinf := by
  cases x <;> simp_all [fpMax]

theorem foldl_fpMax_posinf (t : List FP) (hn : FP.nan ∉ t) :
    t.foldl fpMax .posinf = .posinf := by
  induction t with
  | nil => rfl
  | cons a t ih =>
      have ha : a ≠ .nan := fun h => hn (h ▸ List.mem_cons_self a t)
      have hn' : FP.nan ∉ t := fun h => hn (List.mem_cons_of_mem a h)
      simpa [fpMax_posinf_left a ha] using ih hn'

theorem fpMax_posinf_right (x : FP) (hn : x ≠ .nan) :
    fpMax x .posinf = .posinf := by
  cases x <;> simp_all [fpMax]

theorem foldl_fpMax_posinf_mem (t : List FP) (acc : FP) (hacc : acc ≠ .nan)
    (hp : FP.posinf ∈ t) (hn : FP.nan ∉ t) :
    t.foldl fpMax acc = .posinf := by
  induction t generalizing acc with
  | nil => cases hp
  | cons a t ih =>
      have hn' : FP.nan ∉ t := fun h => hn (List.mem_cons_of_mem a h)
      have ha : a ≠ .nan := fun h => hn (h ▸ List.mem_cons_self a t)
      rcases List.mem_cons.mp hp with hap | hpt
      · subst hap
        simpa [fpMax_posinf_right acc hacc] using foldl_fpMax_posinf t hn'
      · have hacc' : fpMax acc a ≠ .nan := by
          cases acc <;> cases a <;> simp_all [fpMax]
        exact ih (fpMax acc a) hacc' hpt hn'

theorem statMax_posinf (xs : List FP) (hp : FP.posinf ∈ xs)
    (hn : FP.nan ∉ xs) : statMax xs = some .posinf := by
  cases xs with
  | nil => cases hp
  | cons a t =>
      have ha : a ≠ .nan := fun h => hn (h ▸ List.mem_cons_self a t)
      have hn' : FP.nan ∉ t := fun h => hn (List.mem_cons_of_mem a h)
      rcases List.mem_cons.mp hp with hap | hpt
      · subst hap
        simpa [statMax] using foldl_fpMax_posinf t hn'
      · simpa [statMax] using foldl_fpMax_posinf_mem t a ha hpt hn'

theorem fpMin_neginf_left (x : FP) (hn : x ≠ .nan) :
    fpMin .neginf x = .neginf := by
  cases x <;> simp_all [fpMin]

theorem foldl_fpMin_neginf (t : List FP) (hn : FP.nan ∉ t) :
    t.foldl fpMin .neginf = .neginf := by
  induction t with
  | nil => rfl
  | cons a t ih =>
      have ha : a ≠ .nan := fun h => hn (h ▸ List.mem_cons_self a t)
      have hn' : FP.nan ∉ t := fun h => hn (List.mem_cons_of_mem a h)
      simpa [fpMin_neginf_left a ha] using ih hn'

theorem fpMin_neginf_right (x : FP) (hn : x ≠ .nan) :
    fpMin x .neginf = .neginf := by
  cases x <;> simp_all [fpMin]

theorem foldl_fpMin_neginf_mem (t : List FP) (acc : FP) (hacc : acc ≠ .nan)
    (hp : FP.neginf ∈ t) (hn : FP.nan ∉ t) :
    t.foldl fpMin acc = .neginf := by
  induction t generalizing acc with
  | nil => cases hp
  | cons a t ih =>
      have hn' : FP.nan ∉ t := fun h => hn (List.mem_cons_of_mem a h)
      have ha : a ≠ .nan := fun h => hn (h ▸ List.mem_cons_self a t)
      rcases List.mem_cons.mp hp with hap | hpt
      · subst hap
        simpa [fpMin_neginf_right acc hacc] using foldl_fpMin_neginf t hn'
      · have hacc' : fpMin acc a ≠ .nan := by
          cases acc <;> cases a <;> simp_all [fpMin]
        exact ih (fpMin acc a) hacc' hpt hn'

theorem statMin_neginf (xs : List FP) (hp : FP.neginf ∈ xs)
    (hn : FP.nan ∉ xs) : statMin xs = some .neginf := by
  cases xs with
  | nil => cases hp
  | cons a t =>
      have ha : a ≠ .nan := fun h => hn (h ▸ List.mem_cons_self a t)
      have hn' : FP.nan ∉ t := fun h => hn (List.mem_cons_of_mem a h)
      rcases List.mem_cons.mp hp with hap | hpt
      · subst hap
        simpa [statMin] using foldl_fpMin_neginf t hn'
      · simpa [statMin] using foldl_fpMin_neginf_mem t a ha hpt hn'

theorem foldl_fpMin_fin (t : List FP) (a : ℚ)
    (h : ∀ x ∈ t, x ≠ FP.nan ∧ x ≠ FP.neginf) :
    ∃ r : ℚ, t.foldl fpMin (.fin a) = .fin r := by
  induction t generalizing a with
  | nil => exact ⟨a, rfl⟩
  | cons x t ih =>
      have hx := h x (List.mem_cons_self x t)
      have ht : ∀ y ∈ t, y ≠ FP.nan ∧ y ≠ FP.neginf :=
        fun y hy => h y (List.mem_cons_of_mem x hy)
      cases x with
      | nan => exact absurd rfl hx.1
      | neginf => exact absurd rfl hx.2
      | posinf => simpa [fpMin] using ih a ht
      | fin b => simpa [fpMin] using ih (min a b) ht

theorem foldl_fpMin_posinf_finite (t : List FP)
    (h : ∀ x ∈ t, x ≠ FP.nan ∧ x ≠ FP.neginf)
    (hf : ∃ x ∈ t, x.isFinite = true) :
    ∃ r : ℚ, t.foldl fpMin .posinf = .fin r := by
  induction t with
  | nil => simp at hf
  | cons x t ih =>
      have ht : ∀ y ∈ t, y ≠ FP.nan ∧ y ≠ FP.neginf :=
        fun y hy => h y (List.mem_cons_of_mem x hy)
      have hx := h x (List.mem_cons_self x t)
      cases x with
      | nan => exact absurd rfl hx.1
      | neginf => exact absurd rfl hx.2
      | posinf =>
          have hf' : ∃ y ∈ t, y.isFinite = true := by
            rcases hf with ⟨y, hy, hyf⟩
            rcases List.mem_cons.mp hy with h1 | h1
            · subst h1
              simp [FP.isFinite] at hyf
            · exact ⟨y, h1, hyf⟩
          simpa [fpMin] using ih ht hf'
      | fin b => simpa [fpMin] using foldl_fpMin_fin t b ht

theorem statMin_finite (xs : List FP)
    (h : ∀ x ∈ xs, x ≠ FP.nan ∧ x ≠ FP.neginf)
    (hf : ∃ x ∈ xs, x.isFinite = true) :
    ∃ r : ℚ, statMin xs = some (.fin r) := by
  cases xs with
  | nil => simp at hf
  | cons x t =>
      have ht : ∀ y ∈ t, y ≠ FP.nan ∧ y ≠ FP.neginf :=
        fun y hy => h y (List.mem_cons_of_mem x hy)
      have hx := h x (List.mem_cons_self x t)
      cases x with
      | nan => exact absurd rfl hx.1
      | neginf => exact absurd rfl hx.2
      | posinf =>
          have hf' : ∃ y ∈ t, y.isFinite = true := by
            rcases hf with ⟨y, hy, hyf⟩
            rcases List.mem_cons.mp hy with h1 | h1
            · subst h1
              simp [FP.isFinite] at hyf
            · exact ⟨y, h1, hyf⟩
          rcases foldl_fpMin_posinf_finite t ht hf' with ⟨r, hr⟩
          exact ⟨r, by simpa [statMin] using hr⟩
      | fin b =>
          rcases foldl_fpMin_fin t b ht with ⟨r, hr⟩
          exact ⟨r, by simpa [statMin] using hr⟩

theorem fpDiv_nan_left (b : FP) : fpDiv .nan b = .nan := by
  cases b <;> rfl

theorem fpSub_nan_right (a : FP) : fpSub a .nan = .nan := by
  cases a <;> rfl

theorem fpSub_nan_left (b : FP) : fpSub .nan b = .nan := by
  cases b <;> rfl

theorem popMean_nan (xs : List FP) (h : sumFP xs = .nan) : popMean xs = .nan := by
  rw [popMean, h, fpDiv_nan_left]

theorem popDev_nan (xs : List FP) (x : FP) (h : popMean xs = .nan) :
    popDev xs x = .nan := by
  rw [popDev, h, fpSub_nan_right]

theorem centralSum2_nan (xs : List FP) (h : popMean xs = .nan) (hne : xs ≠ []) :
    centralSum2 xs = .nan := by
  rcases List.exists_mem_of_ne_nil xs hne with ⟨a, ha⟩
  apply sumFP_nan_mem
  refine List.mem_map.mpr ⟨a, ha, ?_⟩
  rw [popDev_nan xs a h]
  rfl

theorem centralSum3_nan (xs : List FP) (h : popMean xs = .nan) (hne : xs ≠ []) :
    centralSum3 xs = .nan := by
  rcases List.exists_mem_of_ne_nil xs hne with ⟨a, ha⟩
  apply sumFP_nan_mem
  refine List.mem_map.mpr ⟨a, ha, ?_⟩
  rw [popDev_nan xs a h]
  rfl

theorem centralSum4_nan (xs : List FP) (h : popMean xs = .nan) (hne : xs ≠ []) :
    centralSum4 xs = .nan := by
  rcases List.exists_mem_of_ne_nil xs hne with ⟨a, ha⟩
  apply sumFP_nan_mem
  refine List.mem_map.mpr ⟨a, ha, ?_⟩
  rw [popDev_nan xs a h]
  rfl

theorem statVariance_nan (xs : List FP) (h : popMean xs = .nan)
    (hlen : 2 ≤ xs.length) : statVariance xs = some .nan := by
  have hne : xs ≠ [] := by
    intro hx
    rw [hx] at hlen
    simp at hlen
  have hg : ¬ xs.length ≤ 1 := by omega
  rw [statVariance, if_neg hg, centralSum2_nan xs h hne, fpDiv_nan_left]

theorem statSkewness_nan (xs : List FP) (h : popMean xs = .nan)
    (hlen : 2 ≤ xs.length) : statSkewness xs = some .nan := by
  have hne : xs ≠ [] := by
    intro hx
    rw [hx] at hlen
    simp at hlen
  have hg : ¬ xs.length ≤ 1 := by omega
  rw [statSkewness, if_neg hg, centralSum3_nan xs h hne, fpDiv_nan_left,
    fpDiv_nan_left]

theorem statKurtosis_nan (xs : List FP) (h : popMean xs = .nan)
    (hlen : 2 ≤ xs.length) : statKurtosis xs = some .nan := by
  have hne : xs ≠ [] := by
    intro hx
    rw [hx] at hlen
    simp at hlen
  have hg : ¬ xs.length ≤ 1 := by omega
  rw [statKurtosis, if_neg hg, centralSum4_nan xs h hne, fpDiv_nan_left,
    fpDiv_nan_left, fpSub_nan_left]

theorem statMean_eq (xs : List FP) (hne : xs ≠ []) :
    statMean xs = some (popMean xs) := by
  rw [statMean, if_neg]
  simpa using hne

theorem fpDiv_posinf_pos (q : ℚ) (hq : 0 < q) :
    fpDiv .posinf (.fin q) = .posinf := by
  have : ¬ q < 0 := by linarith
  simp [fpDiv, this]

theorem fpDiv_neginf_pos (q : ℚ) (hq : 0 < q) :
    fpDiv .neginf (.fin q) = .neginf := by
  have : ¬ q < 0 := by linarith
  simp [fpDiv, this]

theorem two_le_length_of_mem_ne {α : Type} {a b : α} {xs : List α}
    (ha : a ∈ xs) (hb : b ∈ xs) (hne : a ≠ b) : 2 ≤ xs.length := by
  cases xs with
  | nil => cases ha
  | cons x t =>
      rcases List.mem_cons.mp ha with h1 | h1
      · rcases List.mem_cons.mp hb with h2 | h2
        · exact absurd (h1.trans h2.symm) hne
        · have : t ≠ [] := List.ne_nil_of_mem h2
          have := List.length_pos.mpr this
          simp only [List.length_cons]
          omega
      · have : t ≠ [] := List.ne_nil_of_mem h1
        have := List.length_pos.mpr this
        simp only [List.length_cons]
        omega

theorem describeStats_no_zeros (l : List FP) :
    describeStats l 0
      = DescribeResult.mk l.length (sumFP l) (statMin l) (statMax l)
          (statMean l) (statVariance l) (statSkewness l) (statKurtosis l) := by
  simp [describeStats]

/-- C3: degenerate populations of `describe` — an empty retained population
reports `nnz = 0`, `sum = 0` and `none` for min, max, mean, variance,
skewness and kurtosis; with one synthesized zero observation (`keep_zeros`)
min, max and mean become `0` while the higher moments stay `none`; and every
one-observation population has `none` variance, skewness and kurtosis while
nnz, sum, min, max and mean are well-defined. -/
theorem describe_degenerate_populations
    (stored : List FP) (kn ki : Bool) (hempty : retain kn ki stored = [])
    (retained : List FP) (nzeros : Nat)
    (hone : (retained ++ List.replicate nzeros (FP.fin 0)).length = 1) :
    describeStats (retain kn ki stored) 0
        = DescribeResult.mk 0 (.fin 0) none none none none none none ∧
    describeStats (retain kn ki stored) 1
        = DescribeResult.mk 0 (.fin 0) (some (.fin 0)) (some (.fin 0))
            (some (.fin 0)) none none none ∧
    ((describeStats retained nzeros).nnz = retained.length ∧
      (describeStats retained nzeros).variance = none ∧
      (describeStats retained nzeros).skewness = none ∧
      (describeStats retained nzeros).kurtosis = none ∧
      (describeStats retained nzeros).min.isSome = true ∧
      (describeStats retained nzeros).max.isSome = true ∧
      (describeStats retained nzeros).mean.isSome = true) := by
  refine ⟨?_, ?_, ?_⟩
  · rw [hempty]
    decide
  · rw [hempty]
    simp [describeStats, sumFP, statMin, statMax, statMean, statVariance,
      statSkewness, statKurtosis, popMean, fpAdd, fpDiv]
  · obtain ⟨x, hx⟩ := List.length_eq_one.mp hone
    have hle : retained.length + nzeros ≤ 1 := by
      have h1 := hone
      simp only [List.length_append, List.length_replicate] at h1
      omega
    refine ⟨rfl, ?_, ?_, ?_, ?_, ?_, ?_⟩
    · simp [describeStats, statVariance, hle]
    · simp [describeStats, statSkewness, hle]
    · simp [describeStats, statKurtosis, hle]
    · simp [describeStats, hx, statMin]
    · simp [describeStats, hx, statMax]
    · simp [describeStats, hx, statMean]

/-- Witness for C3: a stored NaN filtered out by `keep_nans = false` gives the
empty retained population, and a single finite observation gives the
one-observation population. -/
theorem describe_degenerate_populations_witness :
    retain false true [FP.nan] = [] ∧
    ([FP.fin 2] ++ List.replicate 0 (FP.fin 0)).length = 1 ∧
    (describeStats (retain false true [FP.nan]) 0
        = DescribeResult.mk 0 (.fin 0) none none none none none none ∧
      describeStats (retain false true [FP.nan]) 1
        = DescribeResult.mk 0 (.fin 0) (some (.fin 0)) (some (.fin 0))
            (some (.fin 0)) none none none ∧
      ((describeStats [FP.fin 2] 0).nnz = [FP.fin 2].length ∧
        (describeStats [FP.fin 2] 0).variance = none ∧
        (describeStats [FP.fin 2] 0).skewness = none ∧
        (describeStats [FP.fin 2] 0).kurtosis = none ∧
        (describeStats [FP.fin 2] 0).min.isSome = true ∧
        (describeStats [FP.fin 2] 0).max.isSome = true ∧
        (describeStats [FP.fin 2] 0).mean.isSome = true)) :=
  ⟨by decide, by decide,
    describe_degenerate_populations [FP.nan] false true (by decide)
      [FP.fin 2] 0 (by decide)⟩

/-- C4, counterexample: the claim fails as universally stated.  For the
single-NaN retained population the variance is `none` (the one-observation
degenerate rule takes precedence), not NaN; for the all-`+Inf` population the
min is `+Inf`, not finite; and a population containing `+Inf` (and no NaN)
but also `-Inf` has sum NaN, not `+Inf`. -/
theorem nan_inf_poisoning_counterexample :
    statVariance [FP.nan] = none ∧
    statMin [FP.posinf] = some FP.posinf ∧
    sumFP [FP.posinf, FP.neginf, FP.fin 1] = FP.nan := by
  decide

/-- C4, amended: over the retained (post-filter) population, (1) a retained
NaN poisons sum, min, max and mean to NaN (and variance, skewness and
kurtosis as well once the population has at least two observations), while
nnz remains the count of retained entries; (2) a retained `+Inf` with no NaN
and no `-Inf` makes sum, max and mean `+Inf`, while min stays finite provided
some finite value is retained; (3) retaining both `+Inf` and `-Inf` (and no
NaN) poisons sum, mean, variance, skewness and kurtosis to NaN while
min is `-Inf` and max is `+Inf`. -/
theorem nan_inf_poisoning_amended
    (xs ys zs : List FP)
    (hx : FP.nan ∈ xs) (hxlen : 2 ≤ xs.length)
    (hyp : FP.posinf ∈ ys) (hyn : FP.nan ∉ ys) (hym : FP.neginf ∉ ys)
    (hyf : ∃ y ∈ ys, y.isFinite = true)
    (hzp : FP.posinf ∈ zs) (hzm : FP.neginf ∈ zs) (hzn : FP.nan ∉ zs) :
    ((describeStats xs 0).nnz = xs.length ∧
      (describeStats xs 0).sum = .nan ∧
      (describeStats xs 0).min = some .nan ∧
      (describeStats xs 0).max = some .nan ∧
      (describeStats xs 0).mean = some .nan ∧
      (describeStats xs 0).variance = some .nan ∧
      (describeStats xs 0).skewness = some .nan ∧
      (describeStats xs 0).kurtosis = some .nan) ∧
    ((describeStats ys 0).nnz = ys.length ∧
      (describeStats ys 0).sum = .posinf ∧
      (describeStats ys 0).max = some .posinf ∧
      (describeStats ys 0).mean = some .posinf ∧
      (∃ r : ℚ, (describeStats ys 0).min = some (.fin r))) ∧
    ((describeStats zs 0).nnz = zs.length ∧
      (describeStats zs 0).sum = .nan ∧
      (describeStats zs 0).min = some .neginf ∧
      (describeStats zs 0).max = some .posinf ∧
      (describeStats zs 0).mean = some .nan ∧
      (describeStats zs 0).variance = some .nan ∧
      (describeStats zs 0).skewness = some .nan ∧
      (describeStats zs 0).kurtosis = some .nan) := by
  rw [describeStats_no_zeros xs, describeStats_no_zeros ys, describeStats_no_zeros zs]
  have hxne : xs ≠ [] := List.ne_nil_of_mem hx
  have hxsum : sumFP xs = .nan := sumFP_nan_mem xs hx
  have hxmean : popMean xs = .nan := popMean_nan xs hxsum
  have hyne : ys ≠ [] := List.ne_nil_of_mem hyp
  have hysum : sumFP ys = .posinf := sumFP_posinf ys hyp hyn hym
  have hzne : zs ≠ [] := List.ne_nil_of_mem hzp
  have hzsum : sumFP zs = .nan := sumFP_both_inf zs hzp hzm
  have hzmean : popMean zs = .nan := popMean_nan zs hzsum
  have hzlen : 2 ≤ zs.length :=
    two_le_length_of_mem_ne hzp hzm (by decide)
  refine ⟨⟨rfl, hxsum, statMin_nan xs hx, statMax_nan xs hx, ?_,
      statVariance_nan xs hxmean hxlen, statSkewness_nan xs hxmean hxlen,
      statKurtosis_nan xs hxmean hxlen⟩,
    ⟨rfl, hysum, statMax_posinf ys hyp hyn, ?_,
      statMin_finite ys ?_ hyf⟩,
    ⟨rfl, hzsum, statMin_neginf zs hzm hzn, statMax_posinf zs hzp hzn, ?_,
      statVariance_nan zs hzmean hzlen, statSkewness_nan zs hzmean hzlen,
      statKurtosis_nan zs hzmean hzlen⟩⟩
  · rw [statMean_eq xs hxne, hxmean]
  · rw [statMean_eq ys hyne, popMean, hysum,
      fpDiv_posinf_pos (ys.length : ℚ) ?_]
    exact_mod_cast Nat.pos_of_ne_zero (fun h0 => hyne (List.length_eq_zero.mp h0))
  · intro y hy
    exact ⟨fun h => hyn (h ▸ hy), fun h => hym (h ▸ hy)⟩
  · rw [statMean_eq zs hzne, hzmean]

/-- Witness for the amended C4 theorem on three concrete populations. -/
theorem nan_inf_poisoning_witness :
    FP.nan ∈ [FP.nan, FP.fin 1] ∧ 2 ≤ ([FP.nan, FP.fin 1] : List FP).length ∧
    FP.posinf ∈ [FP.fin 1, FP.posinf] ∧ FP.nan ∉ [FP.fin 1, FP.posinf] ∧
    FP.neginf ∉ [FP.fin 1, FP.posinf] ∧
    (∃ y ∈ [FP.fin 1, FP.posinf], y.isFinite = true) ∧
    FP.posinf ∈ [FP.posinf, FP.neginf] ∧ FP.neginf ∈ [FP.posinf, FP.neginf] ∧
    FP.nan ∉ [FP.posinf, FP.neginf] ∧
    (((describeStats [FP.nan, FP.fin 1] 0).nnz
          = ([FP.nan, FP.fin 1] : List FP).length ∧
        (describeStats [FP.nan, FP.fin 1] 0).sum = .nan ∧
        (describeStats [FP.nan, FP.fin 1] 0).min = some .nan ∧
        (describeStats [FP.nan, FP.fin 1] 0).max = some .nan ∧
        (describeStats [FP.nan, FP.fin 1] 0).mean = some .nan ∧
        (describeStats [FP.nan, FP.fin 1] 0).variance = some .nan ∧
        (describeStats [FP.nan, FP.fin 1] 0).skewness = some .nan ∧
        (describeStats [FP.nan, FP.fin 1] 0).kurtosis = some .nan) ∧
      ((describeStats [FP.fin 1, FP.posinf] 0).nnz
          = ([FP.fin 1, FP.posinf] : List FP).length ∧
        (describeStats [FP.fin 1, FP.posinf] 0).sum = .posinf ∧
        (describeStats [FP.fin 1, FP.posinf] 0).max = some .posinf ∧
        (describeStats [FP.fin 1, FP.posinf] 0).mean = some .posinf ∧
        (∃ r : ℚ, (describeStats [FP.fin 1, FP.posinf] 0).min
          = some (.fin r))) ∧
      ((describeStats [FP.posinf, FP.neginf] 0).nnz
          = ([FP.posinf, FP.neginf] : List FP).length ∧
        (describeStats [FP.posinf, FP.neginf] 0).sum = .nan ∧
        (describeStats [FP.posinf, FP.neginf] 0).min = some .neginf ∧
        (describeStats [FP.posinf, FP.neginf] 0).max = some .posinf ∧
        (describeStats [FP.posinf, FP.neginf] 0).mean = some .nan ∧
        (describeStats [FP.posinf, FP.neginf] 0).variance = some .nan ∧
        (describeStats [FP.posinf, FP.neginf] 0).skewness = some .nan ∧
        (describeStats [FP.posinf, FP.neginf] 0).kurtosis = some .nan)) :=
  ⟨by decide, by decide, by decide, by decide, by decide,
    ⟨FP.fin 1, by decide⟩, by decide, by decide, by decide,
    nan_inf_poisoning_amended [FP.nan, FP.fin 1] [FP.fin 1, FP.posinf]
      [FP.posinf, FP.neginf] (by decide) (by decide) (by decide) (by decide)
      (by decide) ⟨FP.fin 1, by decide⟩ (by decide) (by decide) (by decide)⟩

/-! ## Equivalence of the single-pass and two-pass moment algorithms -/

theorem sub_sq_sum (xs : List ℚ) (m : ℚ) :
    (xs.map (fun x => (x - m) ^ 2)).sum
      = (xs.map (fun x => x ^ 2)).sum - 2 * m * xs.sum
        + (xs.length : ℚ) * m ^ 2 := by
  induction xs with
  | nil => simp
  | cons a t ih =>
      simp only [List.map_cons, List.sum_cons, List.length_cons, ih]
      push_cast
      ring

theorem sub_cube_sum (xs : List ℚ) (m : ℚ) :
    (xs.map (fun x => (x - m) ^ 3)).sum
      = (xs.map (fun x => x ^ 3)).sum - 3 * m * (xs.map (fun x => x ^ 2)).sum
        + 3 * m ^ 2 * xs.sum - (xs.length : ℚ) * m ^ 3 := by
  induction xs with
  | nil => simp
  | cons a t ih =>
      simp only [List.map_cons, List.sum_cons, List.length_cons, ih]
      push_cast
      ring

theorem sub_quart_sum (xs : List ℚ) (m : ℚ) :
    (xs.map (fun x => (x - m) ^ 4)).sum
      = (xs.map (fun x => x ^ 4)).sum - 4 * m * (xs.map (fun x => x ^ 3)).sum
        + 6 * m ^ 2 * (xs.map (fun x => x ^ 2)).sum - 4 * m ^ 3 * xs.sum
        + (xs.length : ℚ) * m ^ 4 := by
  induction xs with
  | nil => simp
  | cons a t ih =>
      simp only [List.map_cons, List.sum_cons, List.length_cons, ih]
      push_cast
      ring

theorem pushMoment_twoPass (xs : List ℚ) (x : ℚ) :
    pushMoment (twoPassMoments xs) x = twoPassMoments (xs ++ [x]) := by
  rcases eq_or_ne xs [] with hnil | hne
  · subst hnil
    simp only [pushMoment, twoPassMoments, meanQ, centralSumQ, Moments.mk.injEq,
      List.nil_append, List.sum_nil, List.length_nil, List.map_nil,
      List.sum_cons, List.length_cons, List.map_cons, List.sum_nil]
    norm_num
  · have hlen : xs.length ≠ 0 := fun h => hne (List.length_eq_zero.mp h)
    have hn0 : (xs.length : ℚ) ≠ 0 := by exact_mod_cast hlen
    have hn1 : (xs.length : ℚ) + 1 ≠ 0 := by positivity
    simp only [pushMoment, twoPassMoments, Moments.mk.injEq, centralSumQ,
      sub_sq_sum, sub_cube_sum, sub_quart_sum, meanQ, List.sum_append,
      List.length_append, List.map_append, List.map_cons, List.map_nil,
      List.sum_cons, List.sum_nil, List.length_cons, List.length_nil]
    push_cast
    refine ⟨trivial, ?_, ?_, ?_, ?_⟩
    · field_simp
      ring
    · field_simp
      ring
    · field_simp
      ring
    · field_simp
      ring

theorem singlePass_eq_twoPass (xs : List ℚ) :
    singlePassMoments xs = twoPassMoments xs := by
  induction xs using List.reverseRecOn with
  | nil =>
      simp [singlePassMoments, initMoments, twoPassMoments, meanQ, centralSumQ]
  | append_singleton l a ih =>
      have h1 : singlePassMoments (l ++ [a])
          = pushMoment (singlePassMoments l) a := by
        simp [singlePassMoments, List.foldl_append]
      rw [h1, ih, pushMoment_twoPass]

/-- C9: over exact arithmetic, the single-pass streaming accumulator computes
exactly the two-pass moments, so variance, skewness and kurtosis computed with
`exact=false` equal the ones computed with `exact=true` for every dataset — in
particular they agree within the claimed relative tolerance of `1e-4`; the
tolerance only absorbs floating-point rounding, which is outside the model. -/
theorem exact_vs_streaming_agreement (xs : List ℚ) :
    varianceSinglePass xs = varianceTwoPass xs ∧
    skewnessSinglePass xs = skewnessTwoPass xs ∧
    kurtosisSinglePass xs = kurtosisTwoPass xs := by
  rw [varianceSinglePass, varianceTwoPass, skewnessSinglePass, skewnessTwoPass,
    kurtosisSinglePass, kurtosisTwoPass, singlePass_eq_twoPass xs]
  exact ⟨rfl, rfl, rfl⟩

end Hictkpy
